import Mathlib

/-!
Verification of the memo-manager program (`src/Main.py`).

The program is a single-file memo application: a JSON-backed store
(`load_memos` / `save_memos`), list-mutation logic (`add_memo`,
`edit_memo`, and the search / delete / sort branches of `main`), and a
presentation formatter (`get_memo_list`).  This file gives a shallow
embedding of that logic: Python lists become Lean lists, Python strings
become Lean strings, the `json` library calls are modelled by an
executable JSON codec over the subset of JSON the program can meet, and
the GUI event loop of `main` becomes a step function over an explicit
application state.
-/

set_option maxRecDepth 4000

namespace MemoApp

/-- A memo record, modelling the Python dict `{'content': ..., 'date': ...}`
built in `add_memo`. -/
structure Memo where
  content : String
  date : String
deriving DecidableEq, Repr

instance : Inhabited Memo := ⟨⟨"", ""⟩⟩

/-! ### Lexicographic comparison

Python compares strings (`memos.sort(key=lambda x: x['date'], ...)` uses
`str.__lt__`) lexicographically on code points.  `lexLe` / `lexLt` model
that comparison on the underlying character lists. -/

/-- Lexicographic `≤` on lists, modelling Python sequence comparison. -/
def lexLe [LinearOrder α] : List α → List α → Bool
  | [], _ => true
  | _ :: _, [] => false
  | a :: as, b :: bs => if a < b then true else if b < a then false else lexLe as bs

/-- Lexicographic `<` on lists, modelling Python sequence comparison. -/
def lexLt [LinearOrder α] : List α → List α → Bool
  | [], [] => false
  | [], _ :: _ => true
  | _ :: _, [] => false
  | a :: as, b :: bs => if a < b then true else if b < a then false else lexLt as bs

theorem lexLe_refl [LinearOrder α] (l : List α) : lexLe l l = true := by
  induction l with
  | nil => rfl
  | cons a as ih => simp [lexLe, ih]

theorem lexLe_cons_iff [LinearOrder α] (a b : α) (as bs : List α) :
    lexLe (a :: as) (b :: bs) = true ↔ a < b ∨ (a = b ∧ lexLe as bs = true) := by
  by_cases h1 : a < b
  · simp [lexLe, h1]
  · by_cases h2 : b < a
    · simp [lexLe, h1, h2]
      intro h; exact absurd h2 (by simp [h, lt_irrefl])
    · have : a = b := le_antisymm (le_of_not_lt h2) (le_of_not_lt h1)
      simp [lexLe, h1, h2, this]

theorem lexLt_cons_iff [LinearOrder α] (a b : α) (as bs : List α) :
    lexLt (a :: as) (b :: bs) = true ↔ a < b ∨ (a = b ∧ lexLt as bs = true) := by
  by_cases h1 : a < b
  · simp [lexLt, h1]
  · by_cases h2 : b < a
    · simp [lexLt, h1, h2]
      intro h; exact absurd h2 (by simp [h, lt_irrefl])
    · have : a = b := le_antisymm (le_of_not_lt h2) (le_of_not_lt h1)
      simp [lexLt, h1, h2, this]

theorem lexLe_total [LinearOrder α] (l₁ l₂ : List α) :
    lexLe l₁ l₂ = true ∨ lexLe l₂ l₁ = true := by
  induction l₁ generalizing l₂ with
  | nil => left; rfl
  | cons a as ih =>
    cases l₂ with
    | nil => right; rfl
    | cons b bs =>
      rcases lt_trichotomy a b with h | h | h
      · left; exact (lexLe_cons_iff ..).mpr (Or.inl h)
      · rcases ih bs with h' | h'
        · left; exact (lexLe_cons_iff ..).mpr (Or.inr ⟨h, h'⟩)
        · right; exact (lexLe_cons_iff ..).mpr (Or.inr ⟨h.symm, h'⟩)
      · right; exact (lexLe_cons_iff ..).mpr (Or.inl h)

theorem lexLe_trans [LinearOrder α] {l₁ l₂ l₃ : List α}
    (h12 : lexLe l₁ l₂ = true) (h23 : lexLe l₂ l₃ = true) : lexLe l₁ l₃ = true := by
  induction l₁ generalizing l₂ l₃ with
  | nil => rfl
  | cons a as ih =>
    cases l₂ with
    | nil => simp [lexLe] at h12
    | cons b bs =>
      cases l₃ with
      | nil => simp [lexLe] at h23
      | cons c cs =>
        rcases (lexLe_cons_iff ..).mp h12 with hab | ⟨hab, hab'⟩ <;>
          rcases (lexLe_cons_iff ..).mp h23 with hbc | ⟨hbc, hbc'⟩
        · exact (lexLe_cons_iff ..).mpr (Or.inl (lt_trans hab hbc))
        · exact (lexLe_cons_iff ..).mpr (Or.inl (hbc ▸ hab))
        · exact (lexLe_cons_iff ..).mpr (Or.inl (hab ▸ hbc))
        · exact (lexLe_cons_iff ..).mpr (Or.inr ⟨hab.trans hbc, ih hab' hbc'⟩)

theorem lexLt_le [LinearOrder α] {l₁ l₂ : List α}
    (h : lexLt l₁ l₂ = true) : lexLe l₁ l₂ = true := by
  induction l₁ generalizing l₂ with
  | nil => rfl
  | cons a as ih =>
    cases l₂ with
    | nil => simp [lexLt] at h
    | cons b bs =>
      rcases (lexLt_cons_iff ..).mp h with h' | ⟨h', h''⟩
      · exact (lexLe_cons_iff ..).mpr (Or.inl h')
      · exact (lexLe_cons_iff ..).mpr (Or.inr ⟨h', ih h''⟩)

/-- Appending after equal prefixes does not change the comparison. -/
theorem lexLe_append_left [LinearOrder α] (xs u v : List α) :
    lexLe (xs ++ u) (xs ++ v) = lexLe u v := by
  induction xs with
  | nil => rfl
  | cons a as ih => simp [lexLe, ih]

/-- A strict comparison between equal-length prefixes decides the whole
comparison, whatever is appended. -/
theorem lexLe_append_of_lt [LinearOrder α] {xs ys : List α} (u v : List α)
    (hlen : xs.length = ys.length) (h : lexLt xs ys = true) :
    lexLe (xs ++ u) (ys ++ v) = true := by
  induction xs generalizing ys with
  | nil =>
    cases ys with
    | nil => simp [lexLt] at h
    | cons b bs => simp at hlen
  | cons a as ih =>
    cases ys with
    | nil => simp at hlen
    | cons b bs =>
      rcases (lexLt_cons_iff ..).mp h with h' | ⟨h', h''⟩
      · exact (lexLe_cons_iff ..).mpr (Or.inl h')
      · exact (lexLe_cons_iff ..).mpr (Or.inr ⟨h', ih (by simpa using hlen) h''⟩)

theorem lexLt_append_left [LinearOrder α] (xs u v : List α) :
    lexLt (xs ++ u) (xs ++ v) = lexLt u v := by
  induction xs with
  | nil => rfl
  | cons a as ih => simp [lexLt, ih]

theorem lexLt_append_of_lt [LinearOrder α] {xs ys : List α} (u v : List α)
    (hlen : xs.length = ys.length) (h : lexLt xs ys = true) :
    lexLt (xs ++ u) (ys ++ v) = true := by
  induction xs generalizing ys with
  | nil =>
    cases ys with
    | nil => simp [lexLt] at h
    | cons b bs => simp at hlen
  | cons a as ih =>
    cases ys with
    | nil => simp at hlen
    | cons b bs =>
      rcases (lexLt_cons_iff ..).mp h with h' | ⟨h', h''⟩
      · exact (lexLt_cons_iff ..).mpr (Or.inl h')
      · exact (lexLt_cons_iff ..).mpr (Or.inr ⟨h', ih (by simpa using hlen) h''⟩)

/-! ### Timestamps

`add_memo` and `edit_memo` stamp records with
`datetime.now().strftime("%Y-%m-%d %H:%M:%S")`.  A `DateTime` is the
six broken-down fields; `fmtDateTime` is the zero-padded fixed-width
rendering used by the program. -/

/-- One decimal digit as a character. -/
def digitChar (n : Nat) : Char :=
  match n with
  | 0 => '0' | 1 => '1' | 2 => '2' | 3 => '3' | 4 => '4'
  | 5 => '5' | 6 => '6' | 7 => '7' | 8 => '8' | _ => '9'

/-- `n` rendered as exactly `w` decimal digits, zero-padded (the `%Y`,
`%m`, `%d`, `%H`, `%M`, `%S` fields of `strftime` are zero-padded). -/
def padDigits : Nat → Nat → List Char
  | 0, _ => []
  | w + 1, n => padDigits w (n / 10) ++ [digitChar (n % 10)]

theorem padDigits_length (w n : Nat) : (padDigits w n).length = w := by
  induction w generalizing n with
  | zero => rfl
  | succ w ih => simp [padDigits, ih]

theorem digitChar_lt : ∀ d₁ < 10, ∀ d₂ < 10, d₁ < d₂ →
    lexLt [digitChar d₁] [digitChar d₂] = true := by decide

/-- Zero-padded fixed-width decimal rendering is strictly monotone for
the lexicographic order: the reason sorting the formatted dates agrees
with sorting the times. -/
theorem padDigits_lt (w : Nat) : ∀ n m, n < m → m < 10 ^ w →
    lexLt (padDigits w n) (padDigits w m) = true := by
  induction w with
  | zero => intro n m hnm hm; omega
  | succ w ih =>
    intro n m hnm hm
    have hq : n / 10 ≤ m / 10 := Nat.div_le_div_right (le_of_lt hnm)
    rcases lt_or_eq_of_le hq with hq' | hq'
    · have hm10 : m / 10 < 10 ^ w := by
        rw [Nat.div_lt_iff_lt_mul (by omega : 0 < 10)]
        rw [pow_succ] at hm
        exact hm
      have hrec := ih (n / 10) (m / 10) hq' hm10
      have hlen : (padDigits w (n / 10)).length = (padDigits w (m / 10)).length := by
        simp [padDigits_length]
      simp only [padDigits]
      exact lexLt_append_of_lt _ _ hlen hrec
    · have hr : n % 10 < m % 10 := by omega
      simp only [padDigits, hq']
      rw [lexLt_append_left]
      exact digitChar_lt _ (Nat.mod_lt _ (by omega)) _ (Nat.mod_lt _ (by omega)) hr

/-- A broken-down local time, modelling the `datetime.now()` values the
program formats.  Only the six fields printed by the format string are
kept. -/
structure DateTime where
  year : Nat
  month : Nat
  day : Nat
  hour : Nat
  minute : Nat
  second : Nat
deriving DecidableEq, Repr

/-- Field ranges of a `datetime` value as formatted by `%Y-%m-%d %H:%M:%S`
(four-digit year, two digits elsewhere). -/
def DateTime.Valid (t : DateTime) : Prop :=
  1000 ≤ t.year ∧ t.year ≤ 9999 ∧ 1 ≤ t.month ∧ t.month ≤ 12 ∧
    1 ≤ t.day ∧ t.day ≤ 31 ∧ t.hour ≤ 23 ∧ t.minute ≤ 59 ∧ t.second ≤ 59

instance (t : DateTime) : Decidable t.Valid := by
  unfold DateTime.Valid; infer_instance

/-- The six fields, most significant first. -/
def DateTime.fields (t : DateTime) : List Nat :=
  [t.year, t.month, t.day, t.hour, t.minute, t.second]

/-- Chronological comparison of two broken-down times. -/
def DateTime.le (a b : DateTime) : Bool := lexLe a.fields b.fields

/-- `strftime("%Y-%m-%d %H:%M:%S")` as a character list. -/
def fmtDateTimeList (t : DateTime) : List Char :=
  padDigits 4 t.year ++ '-' :: (padDigits 2 t.month ++ '-' ::
    (padDigits 2 t.day ++ ' ' :: (padDigits 2 t.hour ++ ':' ::
      (padDigits 2 t.minute ++ ':' :: padDigits 2 t.second))))

/-- `datetime.now().strftime("%Y-%m-%d %H:%M:%S")`. -/
def fmtDateTime (t : DateTime) : String := String.mk (fmtDateTimeList t)

/-- Compare one field of the two formatted strings: either the field is
strictly smaller (the comparison of the whole strings is decided) or it is
equal (strip it and continue). -/
theorem lexLe_pad_step {n m : Nat} (w : Nat) (c : Char) (u v : List Char)
    (hm : m < 10 ^ w) (hnm : n ≤ m)
    (hrest : n = m → lexLe u v = true) :
    lexLe (padDigits w n ++ c :: u) (padDigits w m ++ c :: v) = true := by
  rcases lt_or_eq_of_le hnm with h | h
  · exact lexLe_append_of_lt _ _ (by simp [padDigits_length]) (padDigits_lt w n m h hm)
  · subst h
    rw [lexLe_append_left]
    rw [show (c :: u) = [c] ++ u from rfl, show (c :: v) = [c] ++ v from rfl]
    rw [lexLe_append_left]
    exact hrest rfl

/-- The tail-field comparison (no separator after the last field). -/
theorem lexLe_pad_last {n m : Nat} (w : Nat) (hm : m < 10 ^ w) (hnm : n ≤ m) :
    lexLe (padDigits w n) (padDigits w m) = true := by
  rcases lt_or_eq_of_le hnm with h | h
  · exact lexLt_le (padDigits_lt w n m h hm)
  · subst h; exact lexLe_refl _

/-- The formatted timestamp is monotone: a later (or equal) broken-down
time yields a lexicographically larger-or-equal formatted string.  This
is the property that makes the program's string-based date comparison
(`§3` of the spec) agree with chronology. -/
theorem fmtDateTime_mono {a b : DateTime} (hb : b.Valid)
    (hab : DateTime.le a b = true) :
    lexLe (fmtDateTime a).data (fmtDateTime b).data = true := by
  obtain ⟨hy1, hy2, hmo1, hmo2, hd1, hd2, hh, hmi, hs⟩ := hb
  simp only [DateTime.le, DateTime.fields] at hab
  rw [lexLe_cons_iff] at hab
  simp only [fmtDateTime, fmtDateTimeList]
  apply lexLe_pad_step 4 _ _ _ (by omega)
  · rcases hab with h | ⟨h, _⟩
    · exact le_of_lt h
    · exact le_of_eq h
  intro hyear
  rcases hab with h | ⟨_, hab⟩
  · omega
  rw [lexLe_cons_iff] at hab
  apply lexLe_pad_step 2 _ _ _ (by omega)
  · rcases hab with h | ⟨h, _⟩
    · exact le_of_lt h
    · exact le_of_eq h
  intro hmonth
  rcases hab with h | ⟨_, hab⟩
  · omega
  rw [lexLe_cons_iff] at hab
  apply lexLe_pad_step 2 _ _ _ (by omega)
  · rcases hab with h | ⟨h, _⟩
    · exact le_of_lt h
    · exact le_of_eq h
  intro hday
  rcases hab with h | ⟨_, hab⟩
  · omega
  rw [lexLe_cons_iff] at hab
  apply lexLe_pad_step 2 _ _ _ (by omega)
  · rcases hab with h | ⟨h, _⟩
    · exact le_of_lt h
    · exact le_of_eq h
  intro hhour
  rcases hab with h | ⟨_, hab⟩
  · omega
  rw [lexLe_cons_iff] at hab
  apply lexLe_pad_step 2 _ _ _ (by omega)
  · rcases hab with h | ⟨h, _⟩
    · exact le_of_lt h
    · exact le_of_eq h
  intro hminute
  rcases hab with h | ⟨_, hab⟩
  · omega
  rw [lexLe_cons_iff] at hab
  apply lexLe_pad_last 2 (by omega)
  rcases hab with h | ⟨h, _⟩
  · exact le_of_lt h
  · exact le_of_eq h

/-! ### Repository operations (`add_memo`, `edit_memo`, and the search /
delete / sort branches of `main`) -/

/-- `add_memo(memos, content)` (`src/Main.py:68`): appends
`{'content': content, 'date': datetime.now().strftime(...)}` and returns
the updated list.  The clock reading is an explicit argument. -/
def add_memo (memos : List Memo) (content : String) (now : DateTime) : List Memo :=
  memos ++ [{ content := content, date := fmtDateTime now }]

/-- `get_memo_list(memos)` (`src/Main.py:28`): one display string per
record, `f"{memo['date']} - {memo['content'][:30]}..."`.  Python's
slice `[:30]` clamps, as does `List.take`. -/
def get_memo_list (memos : List Memo) : List String :=
  memos.map (fun m => m.date ++ " - " ++ String.mk (m.content.data.take 30) ++ "...")

/-- Character-wise lower-casing, modelling `str.lower()` (the model
covers the ASCII case mapping). -/
def pyLower (l : List Char) : List Char := l.map Char.toLower

/-- Python's substring test `needle in hay`. -/
def containsSub (hay needle : List Char) : Bool :=
  match hay with
  | [] => needle.isEmpty
  | _ :: t => needle.isPrefixOf hay || containsSub t needle

/-- The search branch of `main` (`src/Main.py:122`): a non-empty term
filters by case-insensitive substring
(`search_term.lower() in memo['content'].lower()`); an empty term shows
the whole collection. -/
def searchMemos (term : String) (memos : List Memo) : List Memo :=
  if term.data.isEmpty then memos
  else memos.filter (fun m => containsSub (pyLower m.content.data) (pyLower term.data))

/-- The delete branch of `main` (`src/Main.py:145`):
`[memo for i, memo in enumerate(memos) if i not in selected_indices]`. -/
def deleteMemos (memos : List Memo) (indices : List Nat) : List Memo :=
  (memos.enum.filter (fun p => !(indices.contains p.1))).map Prod.snd

/-- The sort branch of `main` (`src/Main.py:151`):
`memos.sort(key=lambda x: x['date'], reverse=True)`.  Python's sort is
stable and, with `reverse=True`, orders keys in non-increasing order
while ties keep their original order; `List.mergeSort` with
`le a b := b.date ≤ a.date` is exactly that stable sort. -/
def sortByDateDescending (memos : List Memo) : List Memo :=
  memos.mergeSort (fun a b => lexLe b.date.data a.date.data)

/-- Outcome of the edit dialog in `edit_memo` (`src/Main.py:93`): the
user clicked `保存` (save), clicked `キャンセル` (cancel), or closed the
window. -/
inductive EditEvent where
  | save
  | cancel
  | closed
deriving DecidableEq, Repr

/-- `edit_memo(memo)` (`src/Main.py:81`): if the dialog closed with the
save button, replace the content with the dialog's text and restamp the
date; otherwise return the memo unchanged.  The dialog's final text and
the clock reading are explicit arguments. -/
def edit_memo (memo : Memo) (event : EditEvent) (newContent : String)
    (now : DateTime) : Memo :=
  if event = .save then { content := newContent, date := fmtDateTime now }
  else memo

/-- The assignment `memos[index] = edit_memo(memos[index])` in the edit
branch of `main` (`src/Main.py:135`): `none` models the `IndexError`
Python raises when `index` is out of bounds. -/
def editMemoAt (memos : List Memo) (index : Nat) (event : EditEvent)
    (newContent : String) (now : DateTime) : Option (List Memo) :=
  if h : index < memos.length then
    some (memos.set index (edit_memo memos[index] event newContent now))
  else none

/-! ### The JSON store

`save_memos` (`src/Main.py:60`) runs `json.dump(memos, f, ensure_ascii=False,
indent=2)` and `load_memos` (`src/Main.py:37`) runs `json.loads` on the file
body.  The two `json` library calls are modelled by an executable codec:
`save_memos` below produces exactly the document `json.dump` writes for a
memo list, and `parseValue` is a recursive-descent model of `json.loads`
(JSON values built from strings, numbers kept as lexemes, `true` / `false` /
`null` / `NaN` / `Infinity`, arrays and objects; `\uXXXX` escapes denoting
surrogate halves, which Lean's `Char` cannot carry, are rejected rather than
decoded). -/

def parseHexDigit (c : Char) : Option Nat :=
  if '0' ≤ c ∧ c ≤ '9' then some (c.toNat - 48)
  else if 'a' ≤ c ∧ c ≤ 'f' then some (c.toNat - 87)
  else if 'A' ≤ c ∧ c ≤ 'F' then some (c.toNat - 55)
  else none
def escDecode (e : Char) : Option Char :=
  if e = '"' then some '"' else if e = '\\' then some '\\' else if e = '/' then some '/'
  else if e = 'b' then some '\x08' else if e = 'f' then some '\x0c' else if e = 'n' then some '\x0a'
  else if e = 'r' then some '\x0d' else if e = 't' then some '\x09' else none

def parseEsc : (l : List Char) → Option (Char × {r : List Char // r.length < l.length})
  | [] => none
  | e :: r =>
    if e = 'u' then
      match r with
      | h1 :: h2 :: h3 :: h4 :: r' =>
        match parseHexDigit h1, parseHexDigit h2, parseHexDigit h3, parseHexDigit h4 with
        | some d1, some d2, some d3, some d4 =>
          let code := ((d1 * 16 + d2) * 16 + d3) * 16 + d4
          if 0xd800 ≤ code ∧ code < 0xe000 then none
          else some (Char.ofNat code, ⟨r', by simp only [List.length_cons]; omega⟩)
        | _, _, _, _ => none
      | _ => none
    else
      match escDecode e with
      | some ec => some (ec, ⟨r, by simp only [List.length_cons]; omega⟩)
      | none => none

def parseStringBody : (l : List Char) → Option (List Char × {r : List Char // r.length < l.length})
  | [] => none
  | c :: r =>
    if c = '"' then some ([], ⟨r, by simp only [List.length_cons]; omega⟩)
    else if c = '\\' then
      match parseEsc r with
      | some (ec, ⟨r', hr'⟩) =>
        match parseStringBody r' with
        | some (cs, ⟨rest, hrest⟩) =>
          some (ec :: cs, ⟨rest, by simp only [List.length_cons]; omega⟩)
        | none => none
      | none => none
    else if c.toNat < 0x20 then none
    else
      match parseStringBody r with
      | some (cs, ⟨rest, hrest⟩) =>
        some (c :: cs, ⟨rest, by simp only [List.length_cons]; omega⟩)
      | none => none
termination_by l => l.length
decreasing_by
  · simp only [List.length_cons]; omega
  · simp only [List.length_cons]; omega

/-- Longest leading run of decimal digits. -/
def takeDigits : List Char → List Char × List Char
  | [] => ([], [])
  | c :: r =>
    if c.isDigit then
      let p := takeDigits r
      (c :: p.1, p.2)
    else ([], c :: r)

theorem takeDigits_length (l : List Char) : (takeDigits l).2.length ≤ l.length := by
  induction l with
  | nil => simp [takeDigits]
  | cons c r ih =>
    simp only [takeDigits]
    split
    · simpa using Nat.le_succ_of_le ih
    · simp

/-- Optional fraction part `.digits`. -/
def parseFrac (l : List Char) : Option (List Char × List Char) :=
  match l with
  | [] => some ([], [])
  | c :: r =>
    if c = '.' then
      match takeDigits r with
      | ([], _) => none
      | (ds, r1) => some ('.' :: ds, r1)
    else some ([], c :: r)

theorem parseFrac_length {l x r : List Char} (h : parseFrac l = some (x, r)) :
    r.length ≤ l.length := by
  unfold parseFrac at h
  split at h
  · simp at h
    obtain ⟨-, hr⟩ := h
    subst hr
    exact Nat.le_refl _
  · rename_i c0 r0
    split at h
    · rcases ht : takeDigits r0 with ⟨ds, r1⟩
      rw [ht] at h
      have hlen := takeDigits_length r0
      rw [ht] at hlen
      rcases ds with _ | ⟨d, ds⟩
      · simp at h
      · simp only [Option.some.injEq, Prod.mk.injEq] at h
        obtain ⟨hx, hr⟩ := h
        subst hr
        simp only [List.length_cons]
        simp at hlen
        omega
    · simp only [Option.some.injEq, Prod.mk.injEq] at h
      obtain ⟨hx, hr⟩ := h
      subst hr
      exact Nat.le_refl _
/-- Sign and digits of an exponent part. -/
def expDigits (l : List Char) : Option (List Char × List Char) :=
  match l with
  | [] => none
  | s :: r2 =>
    if s = '+' ∨ s = '-' then
      match takeDigits r2 with
      | ([], _) => none
      | (ds, r3) => some (s :: ds, r3)
    else
      match takeDigits (s :: r2) with
      | ([], _) => none
      | (ds, r3) => some (ds, r3)

theorem expDigits_length {l x r : List Char} (h : expDigits l = some (x, r)) :
    r.length ≤ l.length := by
  unfold expDigits at h
  split at h
  · simp at h
  · rename_i s r2
    split at h
    · rcases ht : takeDigits r2 with ⟨ds, r3⟩
      rw [ht] at h
      have hlen := takeDigits_length r2
      rw [ht] at hlen
      rcases ds with _ | ⟨d, ds⟩
      · simp at h
      · simp only [Option.some.injEq, Prod.mk.injEq] at h
        obtain ⟨-, hr⟩ := h
        subst hr
        simp only [List.length_cons] at *
        omega
    · rcases ht : takeDigits (s :: r2) with ⟨ds, r3⟩
      rw [ht] at h
      have hlen := takeDigits_length (s :: r2)
      rw [ht] at hlen
      rcases ds with _ | ⟨d, ds⟩
      · simp at h
      · simp only [Option.some.injEq, Prod.mk.injEq] at h
        obtain ⟨-, hr⟩ := h
        subst hr
        simp only [List.length_cons] at *
        omega

/-- Optional exponent part `e`/`E`, optional sign, digits. -/
def parseExp (l : List Char) : Option (List Char × List Char) :=
  match l with
  | [] => some ([], [])
  | c :: r =>
    if c = 'e' ∨ c = 'E' then
      match expDigits r with
      | some (ds, r3) => some (c :: ds, r3)
      | none => none
    else some ([], l)

theorem parseExp_length {l x r : List Char} (h : parseExp l = some (x, r)) :
    r.length ≤ l.length := by
  unfold parseExp at h
  split at h
  · simp at h
    obtain ⟨-, hr⟩ := h
    subst hr
    exact Nat.le_refl _
  · rename_i c r0
    split at h
    · rcases he : expDigits r0 with _ | ⟨ds, r3⟩ <;> rw [he] at h
      · simp at h
      · have := expDigits_length he
        simp only [Option.some.injEq, Prod.mk.injEq] at h
        obtain ⟨-, hr⟩ := h
        subst hr
        simp only [List.length_cons]
        omega
    · simp only [Option.some.injEq, Prod.mk.injEq] at h
      obtain ⟨-, hr⟩ := h
      subst hr
      exact Nat.le_refl _

/-- An unsigned JSON number: `0` or a nonzero digit run, optional
fraction, optional exponent (the `json` module's `NUMBER_RE`). -/
def parseUNumber (l : List Char) : Option (List Char × List Char) :=
  match l with
  | [] => none
  | c :: r =>
    if c.isDigit then
      match parseFrac (if c = '0' then (([] : List Char), r) else takeDigits r).2 with
      | none => none
      | some (fpart, r2) =>
        match parseExp r2 with
        | none => none
        | some (epart, r3) =>
          some (c :: (if c = '0' then (([] : List Char), r) else takeDigits r).1 ++
            fpart ++ epart, r3)
    else none

theorem parseUNumber_length {l x r : List Char} (h : parseUNumber l = some (x, r)) :
    r.length < l.length := by
  unfold parseUNumber at h
  split at h
  · simp at h
  · rename_i c r0
    split at h
    · have hip : (if c = '0' then (([] : List Char), r0) else takeDigits r0).2.length ≤ r0.length := by
        split
        · exact Nat.le_refl _
        · exact takeDigits_length r0
      rcases hf : parseFrac (if c = '0' then (([] : List Char), r0) else takeDigits r0).2 with _ | ⟨fpart, r2⟩ <;>
        rw [hf] at h <;> simp only [] at h
      · simp at h
      · have h2 := parseFrac_length hf
        rcases he : parseExp r2 with _ | ⟨epart, r3⟩ <;> rw [he] at h <;> simp only [] at h
        · simp at h
        · have h3 := parseExp_length he
          simp only [Option.some.injEq, Prod.mk.injEq] at h
          obtain ⟨-, hr⟩ := h
          subst hr
          simp only [List.length_cons]
          omega
    · simp at h

/-- A JSON number with optional leading minus. -/
def parseNumber (l : List Char) : Option (List Char × List Char) :=
  match l with
  | [] => none
  | c :: r =>
    if c = '-' then
      match parseUNumber r with
      | some (ds, rest) => some ('-' :: ds, rest)
      | none => none
    else parseUNumber (c :: r)

theorem parseNumber_length {l x r : List Char} (h : parseNumber l = some (x, r)) :
    r.length < l.length := by
  unfold parseNumber at h
  split at h
  · simp at h
  · rename_i c0 r0
    split at h
    · rcases hu : parseUNumber r0 with _ | ⟨ds, rest⟩ <;> rw [hu] at h
      · simp at h
      · have := parseUNumber_length hu
        simp only [Option.some.injEq, Prod.mk.injEq] at h
        obtain ⟨-, hr⟩ := h
        subst hr
        simp only [List.length_cons]
        omega
    · exact parseUNumber_length h
inductive Json where
  | null
  | bool (b : Bool)
  | num (lexeme : String)
  | str (s : String)
  | arr (elems : List Json)
  | obj (members : List (String × Json))
deriving Repr

def isJsonWs (c : Char) : Bool := c = ' ' || c = '\t' || c = '\n' || c = '\r'

def skipWs : List Char → List Char
  | [] => []
  | c :: r => if isJsonWs c then skipWs r else c :: r

theorem skipWs_length_le (l : List Char) : (skipWs l).length ≤ l.length := by
  induction l with
  | nil => exact Nat.le_refl _
  | cons c r ih =>
    simp only [skipWs]
    split
    · exact Nat.le_succ_of_le ih
    · exact Nat.le_refl _

/-- `skipWs` packaged with its length bound. -/
def skipWsL (l : List Char) : {r : List Char // r.length ≤ l.length} :=
  ⟨skipWs l, skipWs_length_le l⟩

theorem skipWs_cons_of_ws {c : Char} (h : isJsonWs c = true) (r : List Char) :
    skipWs (c :: r) = skipWs r := by
  simp [skipWs, h]

theorem skipWs_cons_of_not_ws {c : Char} (h : isJsonWs c = false) (r : List Char) :
    skipWs (c :: r) = c :: r := by
  simp [skipWs, h]

mutual

def parseValue : (l : List Char) → Option (Json × {r : List Char // r.length < l.length})
  | [] => none
  | c :: r =>
    if c = '"' then
      match parseStringBody r with
      | some (cs, ⟨rest, hrest⟩) =>
        some (Json.str (String.mk cs), ⟨rest, by simp only [List.length_cons]; omega⟩)
      | none => none
    else if c = '[' then
      match skipWsL r with
      | ⟨']' :: r2, hsk⟩ =>
        some (Json.arr [], ⟨r2, by simp only [List.length_cons] at hsk ⊢; omega⟩)
      | ⟨sk, hsk⟩ =>
        match parseValue sk with
        | some (v, ⟨r1, h1⟩) =>
          match parseItemsRest r1 with
          | some (vs, ⟨rest, hrest⟩) =>
            some (Json.arr (v :: vs), ⟨rest, by simp only [List.length_cons]; omega⟩)
          | none => none
        | none => none
    else if c = '{' then
      match skipWsL r with
      | ⟨'}' :: r2, hsk⟩ =>
        some (Json.obj [], ⟨r2, by simp only [List.length_cons] at hsk ⊢; omega⟩)
      | ⟨sk, hsk⟩ =>
        match parseMembers sk with
        | some (kvs, ⟨rest, hrest⟩) =>
          some (Json.obj kvs, ⟨rest, by simp only [List.length_cons]; omega⟩)
        | none => none
    else if c = 't' then
      if ['r', 'u', 'e'].isPrefixOf r then
        some (Json.bool true, ⟨r.drop 3, by simp only [List.length_cons, List.length_drop]; omega⟩)
      else none
    else if c = 'f' then
      if ['a', 'l', 's', 'e'].isPrefixOf r then
        some (Json.bool false, ⟨r.drop 4, by simp only [List.length_cons, List.length_drop]; omega⟩)
      else none
    else if c = 'n' then
      if ['u', 'l', 'l'].isPrefixOf r then
        some (Json.null, ⟨r.drop 3, by simp only [List.length_cons, List.length_drop]; omega⟩)
      else none
    else if c = 'N' then
      if ['a', 'N'].isPrefixOf r then
        some (Json.num "NaN", ⟨r.drop 2, by simp only [List.length_cons, List.length_drop]; omega⟩)
      else none
    else if c = 'I' then
      if ['n', 'f', 'i', 'n', 'i', 't', 'y'].isPrefixOf r then
        some (Json.num "Infinity",
          ⟨r.drop 7, by simp only [List.length_cons, List.length_drop]; omega⟩)
      else none
    else if c = '-' ∧ ['I', 'n', 'f', 'i', 'n', 'i', 't', 'y'].isPrefixOf r then
      some (Json.num "-Infinity",
        ⟨r.drop 8, by simp only [List.length_cons, List.length_drop]; omega⟩)
    else
      match hpn : parseNumber (c :: r) with
      | some (lexm, rest) =>
        some (Json.num (String.mk lexm), ⟨rest, parseNumber_length hpn⟩)
      | none => none
termination_by l => l.length
decreasing_by
  · simp only [List.length_cons]
    omega
  · simp only [List.length_cons]
    omega
  · simp only [List.length_cons]
    omega

def parseItemsRest (l : List Char) :
    Option (List Json × {r : List Char // r.length < l.length}) :=
  match skipWsL l with
  | ⟨']' :: r2, hsk⟩ =>
    some ([], ⟨r2, by simp only [List.length_cons] at hsk; omega⟩)
  | ⟨',' :: r2, hsk⟩ =>
    match parseValue (skipWs r2) with
    | some (v, ⟨r3, h3⟩) =>
      match parseItemsRest r3 with
      | some (vs, ⟨r4, h4⟩) =>
        some (v :: vs, ⟨r4, by
          have h6 := skipWs_length_le r2
          simp only [List.length_cons] at hsk
          omega⟩)
      | none => none
    | none => none
  | _ => none
termination_by l.length
decreasing_by
  · have hy := skipWs_length_le r2
    simp only [List.length_cons] at hsk
    omega
  · have hy := skipWs_length_le r2
    simp only [List.length_cons] at hsk
    omega

def parseMembers : (l : List Char) → Option (List (String × Json) × {r : List Char // r.length < l.length})
  | [] => none
  | c :: r =>
    if c = '"' then
      match parseStringBody r with
      | some (key, ⟨r1, h1⟩) =>
        match skipWsL r1 with
        | ⟨':' :: r2, hsk⟩ =>
          match parseValue (skipWs r2) with
          | some (v, ⟨r3, h3⟩) =>
            match skipWsL r3 with
            | ⟨'}' :: r4, hsk2⟩ =>
              some ([(String.mk key, v)], ⟨r4, by
                have h6 := skipWs_length_le r2
                simp only [List.length_cons] at hsk hsk2 ⊢
                omega⟩)
            | ⟨',' :: r4, hsk2⟩ =>
              match parseMembers (skipWs r4) with
              | some (kvs, ⟨r5, h5⟩) =>
                some ((String.mk key, v) :: kvs, ⟨r5, by
                  have h6 := skipWs_length_le r2
                  have h7 := skipWs_length_le r4
                  simp only [List.length_cons] at hsk hsk2 ⊢
                  omega⟩)
              | none => none
            | _ => none
          | none => none
        | _ => none
      | none => none
    else none
termination_by l => l.length
decreasing_by
  · have hy := skipWs_length_le r2
    simp only [List.length_cons] at hsk ⊢
    omega
  · have hy := skipWs_length_le r2
    have hz := skipWs_length_le r4
    simp only [List.length_cons] at hsk hsk2 ⊢
    omega

end

def loadJson (s : String) : Option Json :=
  match parseValue (skipWs s.data) with
  | some (v, ⟨rest, _⟩) => if skipWs rest = [] then some v else none
  | none => none

def hexChar (n : Nat) : Char :=
  match n with
  | 0 => '0' | 1 => '1' | 2 => '2' | 3 => '3' | 4 => '4'
  | 5 => '5' | 6 => '6' | 7 => '7' | 8 => '8' | 9 => '9'
  | 10 => 'a' | 11 => 'b' | 12 => 'c' | 13 => 'd' | 14 => 'e' | _ => 'f'

def escChar (c : Char) : List Char :=
  if c = '"' then ['\\', '"']
  else if c = '\\' then ['\\', '\\']
  else if c = '\x08' then ['\\', 'b']
  else if c = '\x09' then ['\\', 't']
  else if c = '\x0a' then ['\\', 'n']
  else if c = '\x0c' then ['\\', 'f']
  else if c = '\x0d' then ['\\', 'r']
  else if c.toNat < 0x20 then
    ['\\', 'u', '0', '0', hexChar (c.toNat / 16), hexChar (c.toNat % 16)]
  else [c]

theorem parseHexDigit_hexChar : ∀ d < 16, parseHexDigit (hexChar d) = some d := by decide

theorem encStr_length (s rest : List Char) :
    rest.length < (s.flatMap escChar ++ '"' :: rest).length := by
  simp only [List.length_append, List.length_cons]
  omega

/-- Forget the length-bound refinement on a parser result. -/
def stripLen {α : Type} {l : List Char}
    (o : Option (α × {r : List Char // r.length < l.length})) : Option (α × List Char) :=
  o.map (fun p => (p.1, p.2.val))

theorem stripLen_eq_some {α : Type} {l : List Char}
    {o : Option (α × {r : List Char // r.length < l.length})} {a : α} {r : List Char} :
    stripLen o = some (a, r) ↔ ∃ h : r.length < l.length, o = some (a, ⟨r, h⟩) := by
  constructor
  · intro h
    rcases o with _ | ⟨b, ⟨r', hr'⟩⟩
    · simp [stripLen] at h
    · simp only [stripLen, Option.map_some', Option.some.injEq, Prod.mk.injEq] at h
      obtain ⟨hb, hr⟩ := h
      subst hb
      subst hr
      exact ⟨hr', rfl⟩
  · rintro ⟨hq, heq⟩
    rw [heq]
    rfl

/-- `parseStringBody` with the refinement forgotten. -/
theorem parseEsc_escChar_control (c : Char) (hc : c.toNat < 0x20) (rest : List Char) :
    parseEsc ('u' :: '0' :: '0' :: hexChar (c.toNat / 16) :: hexChar (c.toNat % 16) :: rest) =
      some (c, ⟨rest, by simp only [List.length_cons]; omega⟩) := by
  have h1 : parseHexDigit (hexChar (c.toNat / 16)) = some (c.toNat / 16) :=
    parseHexDigit_hexChar _ (by omega)
  have h2 : parseHexDigit (hexChar (c.toNat % 16)) = some (c.toNat % 16) :=
    parseHexDigit_hexChar _ (by omega)
  have hd : parseHexDigit '0' = some 0 := by decide
  simp only [parseEsc, if_pos rfl, hd, h1, h2]
  have hcode : ((0 * 16 + 0) * 16 + c.toNat / 16) * 16 + c.toNat % 16 = c.toNat := by omega
  rw [hcode]
  have hns : ¬(0xd800 ≤ c.toNat ∧ c.toNat < 0xe000) := by omega
  simp [hns, Char.ofNat_toNat]

def psb (l : List Char) : Option (List Char × List Char) := stripLen (parseStringBody l)

theorem psb_enc_gen : ∀ (s l rest : List Char),
    l = s.flatMap escChar ++ '"' :: rest → psb l = some (s, rest) := by
  intro s
  induction s with
  | nil =>
    intro l rest hl
    simp only [List.flatMap_nil, List.nil_append] at hl
    subst hl
    simp only [psb, stripLen]
    rw [parseStringBody.eq_def]
    simp
  | cons c cs ih =>
    intro l rest hl
    obtain ⟨hpf, hraw⟩ := stripLen_eq_some.mp (ih (cs.flatMap escChar ++ '"' :: rest) rest rfl)
    rw [List.flatMap_cons, List.append_assoc] at hl
    by_cases h1 : c = '"'
    · subst h1
      rw [show escChar '"' = ['\\', '"'] by decide] at hl
      subst hl
      simp only [psb, stripLen, List.cons_append, List.nil_append]
      rw [parseStringBody.eq_def]
      simp [parseEsc, escDecode, hraw]
    by_cases h2 : c = '\\'
    · subst h2
      rw [show escChar '\\' = ['\\', '\\'] by decide] at hl
      subst hl
      simp only [psb, stripLen, List.cons_append, List.nil_append]
      rw [parseStringBody.eq_def]
      simp [parseEsc, escDecode, hraw]
    by_cases h3 : c = '\x08'
    · subst h3
      rw [show escChar '\x08' = ['\\', 'b'] by decide] at hl
      subst hl
      simp only [psb, stripLen, List.cons_append, List.nil_append]
      rw [parseStringBody.eq_def]
      simp [parseEsc, escDecode, hraw]
    by_cases h4 : c = '\x09'
    · subst h4
      rw [show escChar '\x09' = ['\\', 't'] by decide] at hl
      subst hl
      simp only [psb, stripLen, List.cons_append, List.nil_append]
      rw [parseStringBody.eq_def]
      simp [parseEsc, escDecode, hraw]
    by_cases h5 : c = '\x0a'
    · subst h5
      rw [show escChar '\x0a' = ['\\', 'n'] by decide] at hl
      subst hl
      simp only [psb, stripLen, List.cons_append, List.nil_append]
      rw [parseStringBody.eq_def]
      simp [parseEsc, escDecode, hraw]
    by_cases h6 : c = '\x0c'
    · subst h6
      rw [show escChar '\x0c' = ['\\', 'f'] by decide] at hl
      subst hl
      simp only [psb, stripLen, List.cons_append, List.nil_append]
      rw [parseStringBody.eq_def]
      simp [parseEsc, escDecode, hraw]
    by_cases h7 : c = '\x0d'
    · subst h7
      rw [show escChar '\x0d' = ['\\', 'r'] by decide] at hl
      subst hl
      simp only [psb, stripLen, List.cons_append, List.nil_append]
      rw [parseStringBody.eq_def]
      simp [parseEsc, escDecode, hraw]
    by_cases h8 : c.toNat < 0x20
    · rw [show escChar c = ['\\', 'u', '0', '0', hexChar (c.toNat / 16), hexChar (c.toNat % 16)] by
        unfold escChar
        rw [if_neg h1, if_neg h2, if_neg h3, if_neg h4, if_neg h5, if_neg h6, if_neg h7,
          if_pos h8]] at hl
      subst hl
      have hp := parseEsc_escChar_control c h8 (cs.flatMap escChar ++ '"' :: rest)
      simp only [psb, stripLen, List.cons_append, List.nil_append] at hp ⊢
      rw [parseStringBody.eq_def]
      simp [hp, hraw]
    · rw [show escChar c = [c] by
        unfold escChar
        rw [if_neg h1, if_neg h2, if_neg h3, if_neg h4, if_neg h5, if_neg h6, if_neg h7,
          if_neg h8]] at hl
      subst hl
      simp only [psb, stripLen, List.cons_append, List.nil_append]
      rw [parseStringBody.eq_def]
      simp [h1, h2, h8, hraw]

theorem psb_enc (s rest : List Char) :
    psb (s.flatMap escChar ++ '"' :: rest) = some (s, rest) :=
  psb_enc_gen s _ rest rfl

def memoToJson (m : Memo) : Json :=
  Json.obj [("content", Json.str m.content), ("date", Json.str m.date)]

def escString (s : String) : List Char := '"' :: (s.data.flatMap escChar ++ ['"'])

def encodeObjCore (m : Memo) : List Char :=
  '{' :: '\n' :: ' ' :: ' ' :: ' ' :: ' ' :: (escString "content" ++ ':' :: ' ' ::
    (escString m.content ++ ',' :: '\n' :: ' ' :: ' ' :: ' ' :: ' ' ::
      (escString "date" ++ ':' :: ' ' ::
        (escString m.date ++ '\n' :: ' ' :: ' ' :: ['}']))))

def pv (l : List Char) : Option (Json × List Char) := stripLen (parseValue l)
def pir (l : List Char) : Option (List Json × List Char) := stripLen (parseItemsRest l)
def pm (l : List Char) : Option (List (String × Json) × List Char) := stripLen (parseMembers l)

theorem dataMk (l : List Char) : (String.mk l).data = l := rfl

theorem mkData (s : String) : String.mk s.data = s := rfl

theorem psb_raw (s : String) (rest : List Char) :
    ∃ h, parseStringBody (s.data.flatMap escChar ++ '"' :: rest) = some (s.data, ⟨rest, h⟩) :=
  stripLen_eq_some.mp (psb_enc s.data rest)

theorem pv_str_raw (s : String) (rest : List Char) :
    ∃ h, parseValue ('"' :: (s.data.flatMap escChar ++ '"' :: rest)) =
      some (Json.str s, ⟨rest, h⟩) := by
  obtain ⟨h, heq⟩ := psb_raw s rest
  rw [parseValue.eq_def]
  simp only [if_pos rfl, heq, mkData]
  exact ⟨by simp only [List.length_cons]; omega, rfl⟩

/-- Parsing the encoded `"date": ...` member and closing brace. -/
theorem pm_date_raw (d : String) (tail : List Char) :
    ∃ h, parseMembers ('"' :: ("date".data.flatMap escChar ++ '"' :: (':' :: ' ' ::
        ('"' :: (d.data.flatMap escChar ++ '"' :: ('\n' :: ' ' :: ' ' :: '}' :: tail)))))) =
      some ([("date", Json.str d)], ⟨tail, h⟩) := by
  obtain ⟨hk, hkey⟩ := psb_raw "date" (':' :: ' ' ::
    ('"' :: (d.data.flatMap escChar ++ '"' :: ('\n' :: ' ' :: ' ' :: '}' :: tail))))
  obtain ⟨hv, hval⟩ := pv_str_raw d ('\n' :: ' ' :: ' ' :: '}' :: tail)
  rw [parseMembers.eq_def]
  simp only [if_pos rfl, hkey, mkData]
  have hval2 : parseValue (skipWs (' ' :: '"' :: (d.data.flatMap escChar ++ '"' ::
      ('\n' :: ' ' :: ' ' :: '}' :: tail)))) =
      some (Json.str d, ⟨'\n' :: ' ' :: ' ' :: '}' :: tail, hv⟩) := hval
  simp [skipWsL, hval2, mkData,
    skipWs_cons_of_ws (show isJsonWs ' ' = true from rfl),
    skipWs_cons_of_ws (show isJsonWs '\n' = true from rfl),
    skipWs_cons_of_not_ws (show isJsonWs ':' = false from rfl),
    skipWs_cons_of_not_ws (show isJsonWs '"' = false from rfl),
    skipWs_cons_of_not_ws (show isJsonWs '}' = false from rfl),
    skipWs_cons_of_not_ws (show isJsonWs ',' = false from rfl)]
  omega

/-- The canonical character-list form of one encoded memo object. -/
def objText (m : Memo) (tail : List Char) : List Char :=
  '{' :: '\n' :: ' ' :: ' ' :: ' ' :: ' ' :: '"' :: ("content".data.flatMap escChar ++
    '"' :: ':' :: ' ' :: '"' :: (m.content.data.flatMap escChar ++
      '"' :: ',' :: '\n' :: ' ' :: ' ' :: ' ' :: ' ' :: '"' :: ("date".data.flatMap escChar ++
        '"' :: ':' :: ' ' :: '"' :: (m.date.data.flatMap escChar ++
          '"' :: '\n' :: ' ' :: ' ' :: '}' :: tail))))

theorem encodeObjCore_append (m : Memo) (tail : List Char) :
    encodeObjCore m ++ tail = objText m tail := by
  simp [encodeObjCore, objText, escString, List.append_assoc]

/-- Parsing both members of an encoded memo object. -/
theorem pm_full_raw (m : Memo) (tail : List Char) :
    ∃ h, parseMembers ('"' :: ("content".data.flatMap escChar ++
        '"' :: ':' :: ' ' :: '"' :: (m.content.data.flatMap escChar ++
          '"' :: ',' :: '\n' :: ' ' :: ' ' :: ' ' :: ' ' :: '"' :: ("date".data.flatMap escChar ++
            '"' :: ':' :: ' ' :: '"' :: (m.date.data.flatMap escChar ++
              '"' :: '\n' :: ' ' :: ' ' :: '}' :: tail))))) =
      some ([("content", Json.str m.content), ("date", Json.str m.date)], ⟨tail, h⟩) := by
  obtain ⟨hk, hkey⟩ := psb_raw "content" (':' :: ' ' :: '"' :: (m.content.data.flatMap escChar ++
    '"' :: ',' :: '\n' :: ' ' :: ' ' :: ' ' :: ' ' :: '"' :: ("date".data.flatMap escChar ++
      '"' :: ':' :: ' ' :: '"' :: (m.date.data.flatMap escChar ++
        '"' :: '\n' :: ' ' :: ' ' :: '}' :: tail))))
  obtain ⟨hv, hval⟩ := pv_str_raw m.content (',' :: '\n' :: ' ' :: ' ' :: ' ' :: ' ' ::
    '"' :: ("date".data.flatMap escChar ++ '"' :: ':' :: ' ' :: '"' ::
      (m.date.data.flatMap escChar ++ '"' :: '\n' :: ' ' :: ' ' :: '}' :: tail)))
  obtain ⟨hd, hdate⟩ := pm_date_raw m.date tail
  rw [parseMembers.eq_def]
  simp only [if_pos rfl, hkey, mkData]
  have hval2 : parseValue (skipWs (' ' :: '"' :: (m.content.data.flatMap escChar ++
      '"' :: ',' :: '\n' :: ' ' :: ' ' :: ' ' :: ' ' :: '"' :: ("date".data.flatMap escChar ++
        '"' :: ':' :: ' ' :: '"' :: (m.date.data.flatMap escChar ++
          '"' :: '\n' :: ' ' :: ' ' :: '}' :: tail))))) =
      some (Json.str m.content, ⟨',' :: '\n' :: ' ' :: ' ' :: ' ' :: ' ' ::
        '"' :: ("date".data.flatMap escChar ++ '"' :: ':' :: ' ' :: '"' ::
          (m.date.data.flatMap escChar ++ '"' :: '\n' :: ' ' :: ' ' :: '}' :: tail)), hv⟩) := hval
  have hdate2 : parseMembers (skipWs ('\n' :: ' ' :: ' ' :: ' ' :: ' ' ::
      '"' :: ("date".data.flatMap escChar ++ '"' :: ':' :: ' ' :: '"' ::
        (m.date.data.flatMap escChar ++ '"' :: '\n' :: ' ' :: ' ' :: '}' :: tail)))) =
      some ([("date", Json.str m.date)], ⟨tail, hd⟩) := hdate
  simp [-List.flatMap_cons, skipWsL, hval2, hdate2, mkData,
    skipWs_cons_of_ws (show isJsonWs ' ' = true from rfl),
    skipWs_cons_of_ws (show isJsonWs '\n' = true from rfl),
    skipWs_cons_of_not_ws (show isJsonWs ':' = false from rfl),
    skipWs_cons_of_not_ws (show isJsonWs '"' = false from rfl),
    skipWs_cons_of_not_ws (show isJsonWs '}' = false from rfl),
    skipWs_cons_of_not_ws (show isJsonWs ',' = false from rfl)]
  omega

/-- Parsing one encoded memo object yields its JSON object. -/
theorem pv_obj_raw (m : Memo) (tail : List Char) :
    ∃ h, parseValue (objText m tail) = some (memoToJson m, ⟨tail, h⟩) := by
  obtain ⟨hm, hmem⟩ := pm_full_raw m tail
  rw [objText, parseValue.eq_def]
  have hmem2 : parseMembers (skipWs ('\n' :: ' ' :: ' ' :: ' ' :: ' ' ::
      '"' :: (['c', 'o', 'n', 't', 'e', 'n', 't'].flatMap escChar ++
        '"' :: ':' :: ' ' :: '"' :: (m.content.data.flatMap escChar ++
          '"' :: ',' :: '\n' :: ' ' :: ' ' :: ' ' :: ' ' :: '"' ::
            (['d', 'a', 't', 'e'].flatMap escChar ++
              '"' :: ':' :: ' ' :: '"' :: (m.date.data.flatMap escChar ++
                '"' :: '\n' :: ' ' :: ' ' :: '}' :: tail)))))) =
      some ([("content", Json.str m.content), ("date", Json.str m.date)], ⟨tail, hm⟩) := hmem
  have hmem3 : parseMembers ('"' :: (['c', 'o', 'n', 't', 'e', 'n', 't'].flatMap escChar ++
      '"' :: ':' :: ' ' :: '"' :: (m.content.data.flatMap escChar ++
        '"' :: ',' :: '\n' :: ' ' :: ' ' :: ' ' :: ' ' :: '"' ::
          (['d', 'a', 't', 'e'].flatMap escChar ++
            '"' :: ':' :: ' ' :: '"' :: (m.date.data.flatMap escChar ++
              '"' :: '\n' :: ' ' :: ' ' :: '}' :: tail))))) =
      some ([("content", Json.str m.content), ("date", Json.str m.date)], ⟨tail, hm⟩) := hmem
  simp [-List.flatMap_cons, skipWsL, hmem2, hmem3, memoToJson,
    skipWs_cons_of_ws (show isJsonWs ' ' = true from rfl),
    skipWs_cons_of_ws (show isJsonWs '\n' = true from rfl),
    skipWs_cons_of_not_ws (show isJsonWs '"' = false from rfl)]
  omega

/-- The text of the remaining array items after one parsed item. -/
def encItemsCont : List Memo → List Char → List Char
  | [], tail => '\n' :: ']' :: tail
  | m :: rest, tail => ',' :: '\n' :: ' ' :: ' ' :: objText m (encItemsCont rest tail)

/-- Parsing the remaining items of an encoded memo array. -/
theorem pir_raw (ms : List Memo) (tail : List Char) :
    ∃ h, parseItemsRest (encItemsCont ms tail) = some (ms.map memoToJson, ⟨tail, h⟩) := by
  induction ms generalizing tail with
  | nil =>
    rw [encItemsCont, parseItemsRest.eq_def]
    simp [skipWsL,
      skipWs_cons_of_ws (show isJsonWs '\n' = true from rfl),
      skipWs_cons_of_not_ws (show isJsonWs ']' = false from rfl)]
    omega
  | cons m rest ih =>
    obtain ⟨ho, hobj⟩ := pv_obj_raw m (encItemsCont rest tail)
    obtain ⟨hi, hitems⟩ := ih tail
    rw [encItemsCont, parseItemsRest.eq_def]
    have hobj2 : parseValue (skipWs ('\n' :: ' ' :: ' ' :: objText m (encItemsCont rest tail))) =
        some (memoToJson m, ⟨encItemsCont rest tail, ho⟩) := hobj
    simp [-List.flatMap_cons, skipWsL, hobj2, hitems,
      skipWs_cons_of_ws (show isJsonWs ' ' = true from rfl),
      skipWs_cons_of_ws (show isJsonWs '\n' = true from rfl),
      skipWs_cons_of_not_ws (show isJsonWs ',' = false from rfl)]
    omega

def encodeMemoItem (m : Memo) : List Char := ' ' :: ' ' :: encodeObjCore m

def encodeItems : List Memo → List Char
  | [] => []
  | [m] => encodeMemoItem m
  | m :: m' :: rest => encodeMemoItem m ++ ',' :: '\n' :: encodeItems (m' :: rest)

def save_memos (memos : List Memo) : String :=
  match memos with
  | [] => "[]"
  | _ => String.mk ('[' :: '\n' :: (encodeItems memos ++ ['\n', ']']))

theorem encodeItems_decomp : ∀ (ms : List Memo) (m : Memo) (tail : List Char),
    encodeItems (m :: ms) ++ '\n' :: ']' :: tail = ' ' :: ' ' :: objText m (encItemsCont ms tail) := by
  intro ms
  induction ms with
  | nil =>
    intro m tail
    simp only [encodeItems, encodeMemoItem, List.cons_append, List.append_assoc]
    rw [encodeObjCore_append]
    rfl
  | cons m2 rest ih =>
    intro m tail
    simp only [encodeItems, encodeMemoItem, List.cons_append, List.append_assoc]
    rw [ih m2 tail, encodeObjCore_append]
    rfl
theorem loadJson_of_parseValue {s : String} {v : Json}
    (hrest : ∃ h, parseValue (skipWs s.data) = some (v, ⟨[], h⟩)) : loadJson s = some v := by
  obtain ⟨h, heq⟩ := hrest
  simp [loadJson, heq, skipWs]

theorem pv_arr_raw (m : Memo) (rest : List Memo) :
    ∃ h, parseValue ('[' :: '\n' :: ' ' :: ' ' :: objText m (encItemsCont rest [])) =
      some (Json.arr ((m :: rest).map memoToJson), ⟨[], h⟩) := by
  obtain ⟨ho, hobj⟩ := pv_obj_raw m (encItemsCont rest [])
  obtain ⟨hi, hitems⟩ := pir_raw rest []
  rw [parseValue.eq_def]
  have hobj2 : parseValue (skipWs ('\n' :: ' ' :: ' ' :: objText m (encItemsCont rest []))) =
      some (memoToJson m, ⟨encItemsCont rest [], ho⟩) := hobj
  have hobj3 : parseValue ('{' :: '\n' :: ' ' :: ' ' :: ' ' :: ' ' :: '"' ::
      (['c', 'o', 'n', 't', 'e', 'n', 't'].flatMap escChar ++
        '"' :: ':' :: ' ' :: '"' :: (m.content.data.flatMap escChar ++
          '"' :: ',' :: '\n' :: ' ' :: ' ' :: ' ' :: ' ' :: '"' ::
            (['d', 'a', 't', 'e'].flatMap escChar ++
              '"' :: ':' :: ' ' :: '"' :: (m.date.data.flatMap escChar ++
                '"' :: '\n' :: ' ' :: ' ' :: '}' :: encItemsCont rest []))))) =
      some (memoToJson m, ⟨encItemsCont rest [], ho⟩) := hobj
  simp [-List.flatMap_cons, skipWsL, hobj2, hobj3, hitems, objText,
    skipWs_cons_of_ws (show isJsonWs ' ' = true from rfl),
    skipWs_cons_of_ws (show isJsonWs '\n' = true from rfl),
    skipWs_cons_of_not_ws (show isJsonWs '{' = false from rfl)]

/-- Round trip: parsing the document `save_memos` writes yields exactly the
memo array. -/
theorem loadJson_save (ms : List Memo) :
    loadJson (save_memos ms) = some (Json.arr (ms.map memoToJson)) := by
  cases ms with
  | nil =>
    simp [save_memos, loadJson, skipWs, isJsonWs, parseValue, skipWsL]
  | cons m rest =>
    rw [save_memos]
    rw [show ('[' :: '\n' :: (encodeItems (m :: rest) ++ ['\n', ']'])) =
      '[' :: '\n' :: ' ' :: ' ' :: objText m (encItemsCont rest []) from by
        rw [show (['\n', ']'] : List Char) = '\n' :: ']' :: ([] : List Char) from rfl]
        rw [encodeItems_decomp]]
    obtain ⟨h, hpv⟩ := pv_arr_raw m rest
    apply loadJson_of_parseValue
    exact ⟨h, hpv⟩
    exact fun h => List.noConfusion h


/-- Python `str.strip()` whitespace (the ASCII whitespace characters;
models the `content.strip()` truthiness test in `load_memos`). -/
def isPySpace (c : Char) : Bool :=
  c = ' ' || c = '\t' || c = '\n' || c = '\r' || c = '\x0b' || c = '\x0c'

/-- `content.strip()` is falsy: every character is whitespace. -/
def isBlank (l : List Char) : Bool := l.all isPySpace

/-- `load_memos()` (`src/Main.py:37`).  The backing file is `none` when
absent and `some text` otherwise.  When the file exists and its text is
non-blank, the function returns whatever `json.loads` produced — not
necessarily a memo array; when the file is absent, blank, or `json.loads`
raises, it returns the empty list. -/
def load_memos (file : Option String) : Json :=
  match file with
  | none => Json.arr []
  | some content =>
    if isBlank content.data then Json.arr []
    else
      match loadJson content with
      | some v => v
      | none => Json.arr []

/-! ### The event loop of `main`

`main` (`src/Main.py:100`) is a loop dispatching on the clicked button.
`AppState` is the mutable state it threads (the memo list, the backing
file, and the listbox contents); `Event` is one user interaction with the
values read from the widgets; `step` is one iteration of the loop.  `step`
returns `none` exactly when the iteration would raise an uncaught
exception (the `memos[index]` `IndexError` on a bad edit index). -/

structure AppState where
  memos : List Memo
  file : Option String
  display : List String
deriving DecidableEq, Repr

inductive Event where
  | add (input : String) (now : DateTime)
  | search (term : String)
  | editSelected (selection : List Nat) (dialog : EditEvent) (newContent : String)
      (now : DateTime)
  | deleteSelected (selection : List Nat) (confirm : Bool)
  | sortDescending
  | quit

/-- One iteration of the `while True` loop in `main`. -/
def step (s : AppState) (e : Event) : Option AppState :=
  match e with
  | .add input now =>
    if input = "" then some s
    else
      let memos := add_memo s.memos input now
      some { memos := memos, file := some (save_memos memos), display := get_memo_list memos }
  | .search term =>
    some { s with display := get_memo_list (searchMemos term s.memos) }
  | .editSelected selection dialog newContent now =>
    match selection with
    | [] => some s
    | index :: _ =>
      match editMemoAt s.memos index dialog newContent now with
      | some memos =>
        some { memos := memos, file := some (save_memos memos), display := get_memo_list memos }
      | none => none
  | .deleteSelected selection confirm =>
    match selection with
    | [] => some s
    | _ :: _ =>
      if confirm then
        let memos := deleteMemos s.memos selection
        some { memos := memos, file := some (save_memos memos), display := get_memo_list memos }
      else some s
  | .sortDescending =>
    some { s with memos := sortByDateDescending s.memos,
                  display := get_memo_list (sortByDateDescending s.memos) }
  | .quit =>
    some { s with file := some (save_memos s.memos) }

/-- The store round trip shared by the load/save theorems: loading the
just-saved document yields the memo array. -/
theorem load_memos_save (ms : List Memo) :
    load_memos (some (save_memos ms)) = Json.arr (ms.map memoToJson) := by
  have hb : isBlank (save_memos ms).data = false := by
    cases ms with
    | nil => decide
    | cons m rest =>
      rw [save_memos]
      · simp [dataMk, isBlank, isPySpace]
      · exact fun h => List.noConfusion h
  rw [load_memos]
  simp only [hb, Bool.false_eq_true, if_false, loadJson_save ms]

/-! ### Claim theorems -/

/-- C10: when the edit dialog is dismissed without choosing save (cancel
or window close), `edit_memo` returns the memo with both its content and
its date unchanged — a cancelled edit has no effect on the record. -/
theorem C10_edit_cancel_no_effect (m : Memo) (newContent : String) (now : DateTime) :
    edit_memo m .cancel newContent now = m ∧ edit_memo m .closed newContent now = m := by
  constructor <;> rfl

/-- C9 counterexample: the Add handler does not skip whitespace-only
input — submitting `" "` to an empty collection appends a record, so the
collection (and the file) change. -/
theorem C9_counterexample :
    (step ⟨[], none, []⟩ (.add " " ⟨2024, 1, 1, 10, 0, 0⟩)).map AppState.memos =
        some [⟨" ", "2024-01-01 10:00:00"⟩] ∧
      (step ⟨[], none, []⟩ (.add " " ⟨2024, 1, 1, 10, 0, 0⟩)).map AppState.memos ≠
        some ([] : List Memo) ∧
      (step ⟨[], none, []⟩ (.add " " ⟨2024, 1, 1, 10, 0, 0⟩)).map AppState.file ≠
        some (none : Option String) := by
  refine ⟨by decide, by decide, by decide⟩

/-- C9 (amended): the Add handler skips the add call only when the input
string is exactly empty (`if memo:`); for the empty input the collection
and the backing file are unchanged, while any non-empty input — including
whitespace-only input — is appended and saved. -/
theorem C9_add_skips_only_exactly_empty (s : AppState) (now : DateTime) :
    step s (.add "" now) = some s ∧
      ∀ input : String, input ≠ "" →
        (step s (.add input now)).map AppState.memos =
          some (s.memos ++ [⟨input, fmtDateTime now⟩]) := by
  constructor
  · rw [step]
    simp
  · intro input hne
    rw [step]
    simp [hne, add_memo]

theorem C9_add_skips_only_exactly_empty_witness :
    step ⟨[], none, []⟩ (.add "" ⟨2024, 1, 1, 10, 0, 0⟩) = some ⟨[], none, []⟩ ∧
      (" " : String) ≠ "" ∧
      (step ⟨[], none, []⟩ (.add " " ⟨2024, 1, 1, 10, 0, 0⟩)).map AppState.memos =
        some ([] ++ [⟨" ", fmtDateTime ⟨2024, 1, 1, 10, 0, 0⟩⟩]) :=
  ⟨(C9_add_skips_only_exactly_empty ⟨[], none, []⟩ ⟨2024, 1, 1, 10, 0, 0⟩).1,
    by decide,
    (C9_add_skips_only_exactly_empty ⟨[], none, []⟩ ⟨2024, 1, 1, 10, 0, 0⟩).2 " " (by decide)⟩

/-- C8: handling the SortDescending intent does not persist — the backing
file after the sort step is exactly the file before it (no save) — while
the Add, EditSelected and DeleteSelected intents each write the freshly
mutated collection to the file in the same step. -/
theorem C8_sort_does_not_persist (s : AppState) :
    (step s .sortDescending =
        some { memos := sortByDateDescending s.memos, file := s.file,
               display := get_memo_list (sortByDateDescending s.memos) }) ∧
      (∀ (input : String) (now : DateTime), input ≠ "" →
        (step s (.add input now)).map AppState.file =
          some (some (save_memos (add_memo s.memos input now)))) ∧
      (∀ (index : Nat) (rest : List Nat) (dialog : EditEvent) (c : String) (now : DateTime)
        (hidx : index < s.memos.length),
        (step s (.editSelected (index :: rest) dialog c now)).map AppState.file =
          some (some (save_memos ((s.memos.set index
            (edit_memo (s.memos.get ⟨index, hidx⟩) dialog c now)))))) ∧
      (∀ (selection : List Nat) (confirm : Bool), selection ≠ [] → confirm = true →
        (step s (.deleteSelected selection confirm)).map AppState.file =
          some (some (save_memos (deleteMemos s.memos selection)))) := by
  refine ⟨rfl, ?_, ?_, ?_⟩
  · intro input now hne
    rw [step]
    simp [hne]
  · intro index rest dialog c now hidx
    rw [step]
    simp only [editMemoAt, dif_pos hidx]
    simp [List.get_eq_getElem]
  · intro selection confirm hsel hconf
    subst hconf
    cases selection with
    | nil => exact absurd rfl hsel
    | cons i rest =>
      rw [step]
      simp

theorem C8_sort_does_not_persist_witness :
    (step ⟨[⟨"a", "2024-01-01 10:00:00"⟩], none, []⟩ .sortDescending =
        some { memos := sortByDateDescending [⟨"a", "2024-01-01 10:00:00"⟩],
               file := none,
               display := get_memo_list (sortByDateDescending [⟨"a", "2024-01-01 10:00:00"⟩]) }) ∧
      ("x" : String) ≠ "" ∧
      (0 : Nat) < [(⟨"a", "2024-01-01 10:00:00"⟩ : Memo)].length ∧
      ([0] : List Nat) ≠ [] ∧
      (step ⟨[⟨"a", "2024-01-01 10:00:00"⟩], none, []⟩
          (.deleteSelected [0] true)).map AppState.file =
        some (some (save_memos (deleteMemos [⟨"a", "2024-01-01 10:00:00"⟩] [0]))) :=
  ⟨(C8_sort_does_not_persist ⟨[⟨"a", "2024-01-01 10:00:00"⟩], none, []⟩).1,
    by decide, by decide, by decide,
    (C8_sort_does_not_persist ⟨[⟨"a", "2024-01-01 10:00:00"⟩], none, []⟩).2.2.2 [0] true
      (by decide) rfl⟩

theorem containsSub_nil (hay : List Char) : containsSub hay [] = true := by
  cases hay <;> simp [containsSub, List.isPrefixOf]

/-- C4: search returns the subsequence of records whose content contains
the term as a case-insensitive substring (the filter characterization and
the per-element condition), preserving the original relative order
(`Sublist`); the collection itself is untouched (the operation is a pure
function of it); an empty term yields the full collection unfiltered. -/
theorem C4_search_spec (term : String) (ms : List Memo) :
    searchMemos "" ms = ms ∧
      (searchMemos term ms).Sublist ms ∧
      searchMemos term ms =
        ms.filter (fun m => containsSub (pyLower m.content.data) (pyLower term.data)) ∧
      ∀ m ∈ searchMemos term ms,
        containsSub (pyLower m.content.data) (pyLower term.data) = true := by
  have hchar : ∀ t : String, searchMemos t ms =
      ms.filter (fun m => containsSub (pyLower m.content.data) (pyLower t.data)) := by
    intro t
    rw [searchMemos]
    split
    · rename_i hemp
      have ht : t.data = [] := by simpa using hemp
      rw [ht]
      refine (List.filter_eq_self.mpr ?_).symm
      intro m hm
      simp [pyLower, containsSub_nil]
    · rfl
  refine ⟨?_, ?_, hchar term, ?_⟩
  · rw [searchMemos]
    simp
  · rw [hchar term]
    exact List.filter_sublist ms
  · intro m hm
    rw [hchar term] at hm
    exact (List.mem_filter.mp hm).2

/-- C7: the presentation formatter yields one display string per record,
each of the form `"{date} - {first 30 characters of content}..."`; the
30-character slice clamps when the content is shorter (the whole content
is shown), and the `"..."` marker is appended in every case. -/
theorem C7_format_spec (ms : List Memo) :
    (get_memo_list ms).length = ms.length ∧
      (∀ (i : Nat) (h : i < ms.length),
        (get_memo_list ms).getD i "" =
          (ms.get ⟨i, h⟩).date ++ " - " ++
            String.mk ((ms.get ⟨i, h⟩).content.data.take 30) ++ "...") ∧
      (∀ (i : Nat) (h : i < ms.length), (ms.get ⟨i, h⟩).content.data.length ≤ 30 →
        (get_memo_list ms).getD i "" =
          (ms.get ⟨i, h⟩).date ++ " - " ++ (ms.get ⟨i, h⟩).content ++ "...") := by
  have hlen : (get_memo_list ms).length = ms.length := by
    simp [get_memo_list]
  have helem : ∀ (i : Nat) (h : i < ms.length),
      (get_memo_list ms).getD i "" =
        (ms.get ⟨i, h⟩).date ++ " - " ++
          String.mk ((ms.get ⟨i, h⟩).content.data.take 30) ++ "..." := by
    intro i h
    simp [get_memo_list, List.getD_eq_getElem?_getD, List.getElem?_map,
      List.getElem?_eq_getElem h, List.get_eq_getElem]
  refine ⟨hlen, helem, ?_⟩
  intro i h hshort
  rw [helem i h]
  rw [List.take_of_length_le hshort]

theorem C7_format_spec_witness :
    (get_memo_list [⟨"hi", "2024-01-01 10:00:00"⟩]).length =
        [(⟨"hi", "2024-01-01 10:00:00"⟩ : Memo)].length ∧
      (get_memo_list [⟨"hi", "2024-01-01 10:00:00"⟩]).getD 0 "" =
        "2024-01-01 10:00:00" ++ " - " ++ ("hi" : String) ++ "..." :=
  ⟨(C7_format_spec [⟨"hi", "2024-01-01 10:00:00"⟩]).1,
    (C7_format_spec [⟨"hi", "2024-01-01 10:00:00"⟩]).2.2 0 (by decide) (by decide)⟩

/-- C6: adding a content string, saving, and loading from the just-saved
file reproduces the memo array exactly, and its last element carries that
exact content — the store round trip is lossless for every content
string, including non-ASCII text (the encoder escapes only `"`, `\` and
control characters and writes everything else verbatim). -/
theorem C6_roundtrip (ms : List Memo) (c : String) (t : DateTime) :
    load_memos (some (save_memos (add_memo ms c t))) =
        Json.arr ((add_memo ms c t).map memoToJson) ∧
      ((add_memo ms c t).map memoToJson).getLast? =
        some (Json.obj [("content", Json.str c), ("date", Json.str (fmtDateTime t))]) := by
  refine ⟨load_memos_save _, ?_⟩
  rw [add_memo, List.map_append]
  simp only [List.map_cons, List.map_nil]
  rw [List.getLast?_concat]
  rfl

/-- C3 counterexample: a backing file containing `true` is valid JSON, so
`json.loads` succeeds and `load_memos` passes the parsed value through —
the result is `True`, not the empty sequence, even though the content does
not parse as a serialized memo array. -/
theorem C3_counterexample :
    load_memos (some "true") = Json.bool true ∧
      ∀ ms : List Memo, Json.bool true ≠ Json.arr (ms.map memoToJson) := by
  constructor
  · rw [load_memos]
    rw [if_neg (by decide)]
    simp [loadJson, skipWs, isJsonWs, parseValue, skipWsL, List.isPrefixOf]
  · exact fun ms h => Json.noConfusion h

/-- C3 (amended): `load_memos` never fails the caller — it returns the
empty sequence when the file is absent, blank, or its content fails JSON
parsing; when the content parses as JSON the parsed value is returned
as-is, which is exactly the memo sequence whenever the file holds a
serialized memo array (but is passed through unchanged for other valid
JSON documents). -/
theorem C3_load_never_fails :
    load_memos none = Json.arr [] ∧
      (∀ c : String, isBlank c.data = true → load_memos (some c) = Json.arr []) ∧
      (∀ c : String, isBlank c.data = false → loadJson c = none →
        load_memos (some c) = Json.arr []) ∧
      (∀ (c : String) (v : Json), isBlank c.data = false → loadJson c = some v →
        load_memos (some c) = v) ∧
      (∀ ms : List Memo, load_memos (some (save_memos ms)) = Json.arr (ms.map memoToJson)) := by
  refine ⟨rfl, ?_, ?_, ?_, load_memos_save⟩
  · intro c hb
    rw [load_memos, if_pos hb]
  · intro c hb hp
    rw [load_memos, if_neg (by simp [hb]), hp]
  · intro c v hb hp
    rw [load_memos, if_neg (by simp [hb]), hp]

theorem C3_load_never_fails_witness :
    load_memos none = Json.arr [] ∧
      isBlank ("  " : String).data = true ∧
      load_memos (some "  ") = Json.arr [] ∧
      isBlank ("\x7binvalid" : String).data = false ∧
      loadJson "\x7binvalid" = none ∧
      load_memos (some "\x7binvalid") = Json.arr [] ∧
      load_memos (some (save_memos [⟨"a", "2024-01-01 10:00:00"⟩])) =
        Json.arr ([(⟨"a", "2024-01-01 10:00:00"⟩ : Memo)].map memoToJson) := by
  have hp : loadJson "\x7binvalid" = none := by
    simp [loadJson, skipWs, isJsonWs, parseValue, parseMembers, skipWsL,
      parseNumber, parseUNumber, List.isPrefixOf]
  refine ⟨C3_load_never_fails.1, by decide,
    C3_load_never_fails.2.1 "  " (by decide), by decide, hp,
    C3_load_never_fails.2.2.1 "\x7binvalid" (by decide) hp,
    C3_load_never_fails.2.2.2.2 [⟨"a", "2024-01-01 10:00:00"⟩]⟩

theorem C4_search_spec_witness :
    (searchMemos "" [(⟨"abc", "2024-01-01 10:00:00"⟩ : Memo)] =
        [(⟨"abc", "2024-01-01 10:00:00"⟩ : Memo)]) ∧
      containsSub (pyLower ("abc" : String).data) (pyLower ("B" : String).data) = true :=
  ⟨(C4_search_spec "B" [(⟨"abc", "2024-01-01 10:00:00"⟩ : Memo)]).1,
    (C4_search_spec "B" [(⟨"abc", "2024-01-01 10:00:00"⟩ : Memo)]).2.2.2
      ⟨"abc", "2024-01-01 10:00:00"⟩ (by decide)⟩

theorem memoGe_trans : ∀ a b c : Memo,
    lexLe b.date.data a.date.data → lexLe c.date.data b.date.data →
      lexLe c.date.data a.date.data :=
  fun _ _ _ h1 h2 => lexLe_trans h2 h1

theorem memoGe_total : ∀ a b : Memo,
    lexLe b.date.data a.date.data || lexLe a.date.data b.date.data := by
  intro a b
  rcases lexLe_total b.date.data a.date.data with h | h <;> simp [h]

/-- C2: `sortByDateDescending` permutes the collection into non-increasing
lexicographic date order, is stable (records with equal dates keep their
prior relative order: filtering by any date value commutes with the
sort), and is idempotent. -/
theorem C2_sort_spec (ms : List Memo) :
    (sortByDateDescending ms).Perm ms ∧
      (sortByDateDescending ms).Pairwise
        (fun a b => lexLe b.date.data a.date.data = true) ∧
      (∀ d : String, (sortByDateDescending ms).filter (fun m => m.date = d) =
        ms.filter (fun m => m.date = d)) ∧
      sortByDateDescending (sortByDateDescending ms) = sortByDateDescending ms := by
  have hsorted := @List.sorted_mergeSort Memo
    (fun a b : Memo => lexLe b.date.data a.date.data) memoGe_trans memoGe_total ms
  refine ⟨List.mergeSort_perm ms _, hsorted, ?_, ?_⟩
  · intro d
    have hpair : (ms.filter (fun m => m.date = d)).Pairwise
        (fun a b : Memo => lexLe b.date.data a.date.data = true) := by
      apply List.pairwise_of_forall_mem_list
      intro a ha b hb
      have ha' := (List.mem_filter.mp ha).2
      have hb' := (List.mem_filter.mp hb).2
      have hda : a.date = d := by simpa using ha'
      have hdb : b.date = d := by simpa using hb'
      rw [hda, hdb]
      exact lexLe_refl _
    have hsub : (ms.filter (fun m => m.date = d)).Sublist (sortByDateDescending ms) :=
      List.sublist_mergeSort memoGe_trans memoGe_total hpair (List.filter_sublist ms)
    have hself : (ms.filter (fun m => m.date = d)).filter (fun m => m.date = d) =
        ms.filter (fun m => m.date = d) :=
      List.filter_eq_self.mpr (fun a ha => (List.mem_filter.mp ha).2)
    have hsub2 := hsub.filter (fun m => decide (m.date = d))
    rw [hself] at hsub2
    have hperm := (List.mergeSort_perm ms
      (fun a b => lexLe b.date.data a.date.data)).filter (fun m => decide (m.date = d))
    exact (hsub2.eq_of_length hperm.length_eq.symm).symm
  · exact List.mergeSort_of_sorted hsorted

theorem deleteAux (idx : List Nat) : ∀ (ms : List Memo) (k : Nat),
    ((ms.enumFrom k).filter (fun p => !(idx.contains p.1))).map Prod.snd
      = ((List.range' k ms.length).filter (fun i => !(idx.contains i))).map
          (fun i => ms.getD (i - k) default) := by
  intro ms
  induction ms with
  | nil => intro k; rfl
  | cons m tl ih =>
    intro k
    rw [List.enumFrom_cons, List.length_cons, List.range'_succ]
    by_cases hk : idx.contains k
    · simp only [List.filter_cons, hk, Bool.not_true, if_false, Bool.false_eq_true]
      rw [ih (k + 1)]
      apply List.map_congr_left
      intro i hi
      have hmem := List.mem_range'.mp (List.mem_of_mem_filter hi)
      have hge : k + 1 ≤ i := by
        obtain ⟨j, hj, hij⟩ := hmem
        omega
      rw [show i - k = (i - (k + 1)) + 1 from by omega]
      rfl
    · simp only [List.filter_cons, hk, Bool.not_false, if_true, Bool.false_eq_true,
        List.map_cons]
      rw [ih (k + 1)]
      have hhead : (m :: tl).getD (k - k) default = m := by
        rw [Nat.sub_self]
        rfl
      rw [hhead]
      congr 1
      apply List.map_congr_left
      intro i hi
      have hmem := List.mem_range'.mp (List.mem_of_mem_filter hi)
      have hge : k + 1 ≤ i := by
        obtain ⟨j, hj, hij⟩ := hmem
        omega
      rw [show i - k = (i - (k + 1)) + 1 from by omega]
      rfl

theorem contains_filter_lt (idx : List Nat) {n i : Nat} (hi : i < n) :
    (idx.filter (fun j => decide (j < n))).contains i = idx.contains i := by
  simp only [List.contains, List.elem_eq_mem, List.mem_filter]
  simp [hi]

/-- C1: delete returns a new collection holding exactly the records whose
position is not in the index set (characterized independently through
`range`-indexing), with the relative order of survivors preserved
(`Sublist`); indices outside the collection bounds are silently ignored
(filtering them away changes nothing), and deleting the empty index set
returns the collection unchanged. -/
theorem C1_delete_spec (ms : List Memo) (idx : List Nat) :
    (deleteMemos ms idx).Sublist ms ∧
      deleteMemos ms idx = deleteMemos ms (idx.filter (fun i => decide (i < ms.length))) ∧
      deleteMemos ms idx =
        ((List.range ms.length).filter (fun i => !(idx.contains i))).map
          (fun i => ms.getD i default) ∧
      deleteMemos ms [] = ms := by
  have hchar : ∀ jdx : List Nat, deleteMemos ms jdx =
      ((List.range ms.length).filter (fun i => !(jdx.contains i))).map
        (fun i => ms.getD i default) := by
    intro jdx
    rw [deleteMemos, List.enum, deleteAux jdx ms 0, List.range_eq_range']
    apply List.map_congr_left
    intro i hi
    rw [Nat.sub_zero]
  refine ⟨?_, ?_, hchar idx, ?_⟩
  · rw [deleteMemos]
    have h1 : ((ms.enum.filter (fun p => !(idx.contains p.1))).map Prod.snd).Sublist
        (ms.enum.map Prod.snd) :=
      (List.filter_sublist ms.enum).map Prod.snd
    rwa [List.enum, List.enumFrom_map_snd] at h1
  · rw [hchar idx, hchar (idx.filter (fun i => decide (i < ms.length)))]
    congr 1
    apply List.filter_congr
    intro i hi
    rw [contains_filter_lt idx (List.mem_range.mp hi)]
  · rw [deleteMemos]
    have hall : ms.enum.filter (fun p => !(([] : List Nat).contains p.1)) = ms.enum :=
      List.filter_eq_self.mpr (fun a _ => rfl)
    rw [hall, List.enum, List.enumFrom_map_snd]

/-- C5: for an in-bounds index, edit replaces the content at that index
with the new content and restamps the record's date with the formatted
current time; because the `%Y-%m-%d %H:%M:%S` rendering is fixed-width
and zero-padded, a clock reading at-or-after the one that produced the
old date yields a lexicographically greater-or-equal date string.  For an
index outside the collection bounds the operation fails (the `IndexError`
of `memos[index]`, modelled as `none`). -/
theorem C5_edit_spec (ms : List Memo) (i : Nat) (c : String) (t0 t : DateTime) :
    (∀ h : i < ms.length,
      (ms.get ⟨i, h⟩).date = fmtDateTime t0 → t.Valid → DateTime.le t0 t = true →
        editMemoAt ms i .save c t = some (ms.set i ⟨c, fmtDateTime t⟩) ∧
          lexLe ((ms.get ⟨i, h⟩).date).data (fmtDateTime t).data = true ∧
          (∀ j, j ≠ i → (ms.set i ⟨c, fmtDateTime t⟩).getD j default = ms.getD j default)) ∧
      (ms.length ≤ i → editMemoAt ms i .save c t = none) := by
  constructor
  · intro h hdate hval hle
    refine ⟨?_, ?_, ?_⟩
    · rw [editMemoAt, dif_pos h]
      simp [edit_memo]
    · rw [hdate]
      exact fmtDateTime_mono hval hle
    · intro j hj
      rw [List.getD_eq_getElem?_getD, List.getD_eq_getElem?_getD,
        List.getElem?_set_ne (fun heq => hj heq.symm)]
  · intro hge
    rw [editMemoAt, dif_neg (by omega)]

theorem C5_edit_spec_witness :
    (editMemoAt [(⟨"a", "2024-01-01 10:00:00"⟩ : Memo)] 0 .save "b"
          ⟨2024, 1, 2, 9, 30, 5⟩ =
        some ([(⟨"a", "2024-01-01 10:00:00"⟩ : Memo)].set 0
          ⟨"b", fmtDateTime ⟨2024, 1, 2, 9, 30, 5⟩⟩)) ∧
      lexLe (([(⟨"a", "2024-01-01 10:00:00"⟩ : Memo)].get ⟨0, by decide⟩).date).data
          (fmtDateTime ⟨2024, 1, 2, 9, 30, 5⟩).data = true ∧
      editMemoAt [(⟨"a", "2024-01-01 10:00:00"⟩ : Memo)] 5 .save "b"
          ⟨2024, 1, 2, 9, 30, 5⟩ = none := by
  obtain ⟨h1, h2, h3⟩ :=
    (C5_edit_spec [(⟨"a", "2024-01-01 10:00:00"⟩ : Memo)] 0 "b"
      ⟨2024, 1, 1, 10, 0, 0⟩ ⟨2024, 1, 2, 9, 30, 5⟩).1
      (by decide) (by decide) (by decide) (by decide)
  exact ⟨h1, h2,
    (C5_edit_spec [(⟨"a", "2024-01-01 10:00:00"⟩ : Memo)] 5 "b"
      ⟨2024, 1, 1, 10, 0, 0⟩ ⟨2024, 1, 2, 9, 30, 5⟩).2 (by decide)⟩

end MemoApp
